import Mathlib

/-!
Verification of the XenianBot command plugins.

The definitions below are shallow embeddings of the two source files:
* `xenian_bot/commands/danbooru.py` — regex option extraction
  (`extract_option_from_string`), search-term filtering (`filter_terms`),
  query building (`search_danbooru`) and the batched media-group send loop
  (`post_list_send_media_group`).
* `xenian/bot/commands/translate.py` — the translate command and the
  direction-string construction (`translate_text`).

Strings are modelled as `List Char`.  The character classes of the
Python regexes and of `str.strip()` are Unicode-aware in Python 3; the
embedding tabulates them exactly for the code points up to U+00FF
(verified against CPython), i.e. it models Latin-1 text; code points
above U+00FF are outside the modelled alphabet and treated as non-word,
non-space.  A raised Python exception is modelled as an explicit error
constructor.
-/

/-- The character list of a string literal (helper for concrete inputs). -/
def strL (s : String) : List Char := s.data

/-- The Python 3 regex class `\w` (Unicode-aware word characters),
tabulated exactly for code points up to U+00FF: the ASCII letters,
digits and underscore, plus the Latin-1 word characters
`ª ² ³ µ ¹ º ¼ ½ ¾` and the accented letters `À–Ö Ø–ö ø–ÿ`
(`×` and `÷` are not word characters). -/
def isWordChar (c : Char) : Bool :=
  (48 ≤ c.toNat && c.toNat ≤ 57) || (65 ≤ c.toNat && c.toNat ≤ 90) ||
    (97 ≤ c.toNat && c.toNat ≤ 122) || c.toNat == 95 ||
    c.toNat == 170 || (178 ≤ c.toNat && c.toNat ≤ 179) || c.toNat == 181 ||
    (185 ≤ c.toNat && c.toNat ≤ 186) || (188 ≤ c.toNat && c.toNat ≤ 190) ||
    (192 ≤ c.toNat && c.toNat ≤ 214) || (216 ≤ c.toNat && c.toNat ≤ 246) ||
    (248 ≤ c.toNat && c.toNat ≤ 255)

/-- ASCII model of the Python regex class `\d`. -/
def isDigitChar (c : Char) : Bool := 48 ≤ c.toNat && c.toNat ≤ 57

/-- The separator class `[ =:]` of the option pattern in
`extract_option_from_string`. -/
def isSepChar (c : Char) : Bool :=
  c.toNat == 32 || c.toNat == 61 || c.toNat == 58

/-- The characters `str.isspace()` accepts (removed by Python
`str.strip()`), tabulated exactly for code points up to U+00FF:
tab through carriage return, the separators U+001C–U+001F, the space,
the next line U+0085 and the no-break space U+00A0. -/
def isPySpace (c : Char) : Bool :=
  (9 ≤ c.toNat && c.toNat ≤ 13) || (28 ≤ c.toNat && c.toNat ≤ 32) ||
    c.toNat == 133 || c.toNat == 160

/-- Case-insensitive literal match of `name` at the head of `text`
(the pattern is compiled with `re.IGNORECASE`).  Returns the rest of the
text after the name on success. -/
def matchPrefixCI : List Char → List Char → Option (List Char)
  | [], t => some t
  | _ :: _, [] => none
  | n :: ns, c :: cs => if n.toLower = c.toLower then matchPrefixCI ns cs else none

/-- The value-character class of the pattern: `\d` for integer kind,
`\w` otherwise (`'\d' if type_ == int else '\w'`). -/
def kindPred (isInt : Bool) : Char → Bool :=
  if isInt then isDigitChar else isWordChar

/-- One attempt of the pattern `{name}[ =:]+{kind}+` at the start of `text`:
the name (case-insensitively), then one or more separators, then one or
more value characters, all greedy.  Returns the matched substring.
Greedy matching is maximal munch here because the separator class and both
value classes are disjoint. -/
def matchAt (name : List Char) (isInt : Bool) (text : List Char) :
    Option (List Char) :=
  match matchPrefixCI name text with
  | none => none
  | some rest1 =>
    let seps := rest1.takeWhile isSepChar
    let rest2 := rest1.dropWhile isSepChar
    if seps.isEmpty then none
    else
      let vals := rest2.takeWhile (kindPred isInt)
      if vals.isEmpty then none
      else some (text.take (name.length + seps.length + vals.length))

/-- Scan of the whole text for the non-overlapping, leftmost matches of the
option pattern, exactly as `re.findall` / `re.sub` enumerate them.  The
first component collects the matched substrings, the second is the text
with every match deleted (the result of `pattern.sub('', text)`).
`skip` counts characters still to be consumed by the match just found. -/
def scanAux (name : List Char) (isInt : Bool) :
    Nat → List Char → List (List Char) × List Char
  | _, [] => ([], [])
  | Nat.succ k, _ :: cs => scanAux name isInt k cs
  | 0, c :: cs =>
    match matchAt name isInt (c :: cs) with
    | some m =>
      let r := scanAux name isInt (m.length - 1) cs
      (m :: r.1, r.2)
    | none =>
      let r := scanAux name isInt 0 cs
      (r.1, c :: r.2)

/-- All matches of the option pattern in `text` together with the text
with every match removed. -/
def scanMatches (name : List Char) (isInt : Bool) (text : List Char) :
    List (List Char) × List Char :=
  scanAux name isInt 0 text

/-- The maximal runs of digit characters of a string, in order: the model
of `re.findall('\d+', s)`.  `cur` accumulates the current run reversed. -/
def digitRunsAux (cur : List Char) : List Char → List (List Char)
  | [] => if cur.isEmpty then [] else [cur.reverse]
  | c :: cs =>
    if isDigitChar c then digitRunsAux (c :: cur) cs
    else if cur.isEmpty then digitRunsAux [] cs
    else cur.reverse :: digitRunsAux [] cs

/-- `re.findall('\d+', s)`. -/
def digitRuns (s : List Char) : List (List Char) := digitRunsAux [] s

/-- Spec-side description of the first maximal digit run of a string:
skip the longest digit-free head, then take the digit run that follows. -/
def firstMaximalDigitRun (s : List Char) : List Char :=
  (s.dropWhile (fun c => !(isDigitChar c))).takeWhile isDigitChar

/-- Numeric value of a digit string, as Python `int` computes it. -/
def digitsToNat (ds : List Char) : Nat :=
  ds.foldl (fun n c => 10 * n + (c.toNat - 48)) 0

/-- The value returned by `extract_option_from_string`: an `int` when the
kind is integer, otherwise the (digit) string taken from the match. -/
inductive OptValue where
  | int (n : Nat)
  | str (s : List Char)
deriving DecidableEq

/-- Result of `extract_option_from_string`: either the pair
`(residual text, optional value)` or the `IndexError` raised by
`re.findall('\d+', match[0])[0]` on a digit-free match. -/
inductive ExtractResult where
  | indexError
  | ok (residual : List Char) (value : Option OptValue)
deriving DecidableEq

/-- `Danbooru.extract_option_from_string` (danbooru.py lines 118-144).
The pattern `{name}[ =:]+{kind}+` is matched case-insensitively; when any
match exists, `pattern.sub('', text)` removes every match from the text,
the value is the first digit run of the first match
(`re.findall('\d+', match[0])[0]`, an `IndexError` when there is none),
coerced with `int` when the kind is integer. -/
def extract_option_from_string (name : List Char) (text : List Char)
    (isInt : Bool) : ExtractResult :=
  let r := scanMatches name isInt text
  match r.1 with
  | [] => .ok text none
  | m :: _ =>
    match (digitRuns m).head? with
    | none => .indexError
    | some d => .ok r.2 (some (if isInt then .int (digitsToNat d) else .str d))

/-- Spec-side definition: the input text with exactly the first matched
substring removed and nothing else altered. -/
def removeFirstMatchSpec (name : List Char) (isInt : Bool) :
    List Char → List Char
  | [] => []
  | c :: cs =>
    match matchAt name isInt (c :: cs) with
    | some m => cs.drop (m.length - 1)
    | none => c :: removeFirstMatchSpec name isInt cs

/-- `pattern.sub('', term)` for `non_alphanum = re.compile('[^\w_ ]+')`:
delete every character outside word characters and space
(danbooru.py line 111-112). -/
def subNonAlphanum (t : List Char) : List Char :=
  t.filter (fun c => isWordChar c || c.toNat == 32)

/-- Python `str.strip()`: remove leading and trailing whitespace. -/
def pyStrip (t : List Char) : List Char :=
  ((t.dropWhile isPySpace).reverse.dropWhile isPySpace).reverse

/-- Python `term.replace(' ', '_')`. -/
def replaceSpace (t : List Char) : List Char :=
  t.map (fun c => if c.toNat == 32 then '_' else c)

/-- `non_alphanum.match(term)` viewed as a Boolean: the pattern
`[^\w_ ]+` matches at the start iff the term is nonempty and its first
character is outside the class. -/
def nonAlphanumMatches (t : List Char) : Bool :=
  match t with
  | [] => false
  | c :: _ => !(isWordChar c || c.toNat == 32)

/-- `OrderedDict.fromkeys`: deduplicate keeping the first occurrence of
each term.  `seen` records the terms already emitted. -/
def dedupKeepFirstAux (seen : List (List Char)) :
    List (List Char) → List (List Char)
  | [] => []
  | t :: ts =>
    if t ∈ seen then dedupKeepFirstAux seen ts
    else t :: dedupKeepFirstAux (t :: seen) ts

/-- `list(OrderedDict.fromkeys(terms))`. -/
def dedupKeepFirst (ts : List (List Char)) : List (List Char) :=
  dedupKeepFirstAux [] ts

/-- `Danbooru.filter_terms` (danbooru.py lines 105-116): strip characters
outside `[\w_ ]`, strip surrounding whitespace, replace spaces with
underscores, keep terms that do not match `[^\w_ ]+` and are nonempty,
deduplicate keeping first occurrences. -/
def filter_terms (terms : List (List Char)) : List (List Char) :=
  let ts1 := terms.map subNonAlphanum
  let ts2 := ts1.map pyStrip
  let ts3 := ts2.map replaceSpace
  let ts4 := ts3.filter (fun t => !(nonAlphanumMatches t) && !(t.isEmpty))
  dedupKeepFirst ts4

/-- Spec-side character class `[A-Za-z0-9_ ]` of §4.2. -/
def specAllowedChar (c : Char) : Bool :=
  (65 ≤ c.toNat && c.toNat ≤ 90) || (97 ≤ c.toNat && c.toNat ≤ 122) ||
    (48 ≤ c.toNat && c.toNat ≤ 57) || c.toNat == 95 || c.toNat == 32

/-- Spec-side term filter of §4.2: for each term strip all characters
outside `[A-Za-z0-9_ ]`, trim surrounding whitespace, replace spaces with
underscores; drop terms empty after normalization; deduplicate keeping
first occurrences. -/
def filterTermsSpec (terms : List (List Char)) : List (List Char) :=
  dedupKeepFirst
    (((terms.map (fun t => replaceSpace (pyStrip (t.filter specAllowedChar)))).filter
      (fun t => !(t.isEmpty))))

/-- The query dict built by `search_danbooru` / `latest` and passed to
`post_list_send_media_group`. -/
structure Query where
  limit : Nat
  page : Nat
  tags : List Char
deriving DecidableEq

/-- Python `if v: query[key] = v` over the result of an integer-kind
extraction: the default survives when the option is missing or `0`. -/
def pyIntPick (v : Option OptValue) (dflt : Nat) : Nat :=
  match v with
  | some (.int p) => if p = 0 then dflt else p
  | _ => dflt

/-- Python `text.split(',')`. -/
def splitComma : List Char → List (List Char)
  | [] => [[]]
  | c :: cs =>
    match splitComma cs with
    | [] => [[c]]
    | t :: ts => if c.toNat == 44 then [] :: t :: ts else (c :: t) :: ts

/-- Python `' '.join(parts)`. -/
def joinSpace : List (List Char) → List Char
  | [] => []
  | [t] => t
  | t :: ts => t ++ ' ' :: joinSpace ts

/-- Outcome of the query-building part of `search_danbooru`:
the early `return` when no tag text was given, a raised exception from the
option extraction, or the built query. -/
inductive BuildResult where
  | noTags
  | raised
  | built (q : Query)
deriving DecidableEq

/-- Query construction of `Danbooru.search_danbooru`
(danbooru.py lines 51-76): defaults `limit=5, page=0`, extraction of the
`page` and `limit` integer options, truthiness-guarded assignment, comma
split of the remaining text, `filter_terms`, and at most two tags joined
by a space. -/
def search_build_query (args : List Char) : BuildResult :=
  if args.isEmpty then .noTags
  else
    match extract_option_from_string (strL "page") args true with
    | .indexError => .raised
    | .ok t1 pageV =>
      match extract_option_from_string (strL "limit") t1 true with
      | .indexError => .raised
      | .ok t2 limitV =>
        .built
          { limit := pyIntPick limitV 5
            page := pyIntPick pageV 0
            tags := joinSpace ((filter_terms (splitComma t2)).take 2) }

/-- The limit clamp at the head of `post_list_send_media_group`
(danbooru.py lines 155-156): the backend `client.post_list(**query)` is
called with this clamped query. -/
def post_list_clamp (q : Query) : Query :=
  if q.limit > 100 then { q with limit := 100 } else q

/-- Python truthiness of an optional string: `None` and the empty string
are falsy. -/
def pyTruthy (o : Option String) : Bool :=
  match o with
  | none => false
  | some s => !(s.isEmpty)

/-- The direction string built by `Translate.translate_text`
(translate.py lines 102-108): the exact if/elif chain of the source. -/
def translate_text_direction (lang_from lang_to : Option String) : String :=
  if pyTruthy lang_from && !(pyTruthy lang_to) then (lang_from.getD "") ++ "-en"
  else if pyTruthy lang_from && pyTruthy lang_to then
    (lang_from.getD "") ++ "-" ++ (lang_to.getD "")
  else if !(pyTruthy lang_from) && pyTruthy lang_to then lang_to.getD ""
  else "en"

/-- `Translate.translate_text` (translate.py lines 91-110), parameterized
over the translation backend `self.translator.translate`: the function
builds the direction string and calls the backend with the text and that
direction. -/
def translate_text {β : Type} (backend : String → String → β)
    (text : String) (lang_from lang_to : Option String) : β :=
  backend text (translate_text_direction lang_from lang_to)

/-- The part of `update.message.text` after the first space, the model of
`update.message.text.split(' ', 1)[1]` (`none` when there is no space). -/
def afterFirstSpace : List Char → Option (List Char)
  | [] => none
  | c :: cs => if c.toNat == 32 then some cs else afterFirstSpace cs

/-- `secondary_text` of `Translate.translate` from the message text. -/
def secondaryOf (msg : String) : Option String :=
  (afterFirstSpace msg.data).map (fun l => String.mk l)

/-- Observable outcome of one invocation of `Translate.translate`:
an abort reply naming an unavailable language code, the missing-input
reply, or a call of `translate_text` with the given primary text and
language options (the only place the translation backend is invoked). -/
inductive TranslateOutcome where
  | notAvailable (code : String)
  | missingInput
  | invoked (text : String) (lang_from lang_to : Option String)
deriving DecidableEq

/-- Tail of `Translate.translate` after the option flags are handled
(translate.py lines 76-89): the primary text falls back to the remaining
secondary text, the missing-input check runs, and otherwise
`translate_text` is invoked with the chosen languages. -/
def translate_after_options (primary : Option String) (sec3 : String)
    (tf tt : Option String) : TranslateOutcome :=
  let primary2 := if pyTruthy primary then primary else some sec3
  if !(pyTruthy primary2) && !(pyTruthy (some sec3)) then .missingInput
  else .invoked (primary2.getD "") tf tt

/-- The branch of `Translate.translate` taken when the message carries
trailing text (translate.py lines 59-77): extract and validate `lf`, then
`lt` (defaulting to `en`), each aborting with the offending code when the
supplied code is not in the supported set. -/
def translate_with_secondary (langs : String → Bool)
    (getOpt : String → String → Option String × String)
    (reply : Option String) (sec1 : String) : TranslateOutcome :=
  let tf := (getOpt "lf" sec1).1
  let new1 := (getOpt "lf" sec1).2
  if pyTruthy tf && !(langs (tf.getD "")) then .notAvailable (tf.getD "")
  else
    let sec2 := if pyTruthy tf then new1 else sec1
    let tt0 := (getOpt "lt" sec2).1
    let new2 := (getOpt "lt" sec2).2
    if pyTruthy tt0 && !(langs (tt0.getD "")) then .notAvailable (tt0.getD "")
    else
      let sec3 := if pyTruthy tt0 then new2 else sec2
      let tt := if pyTruthy tt0 then tt0 else some "en"
      translate_after_options reply sec3 tf tt

/-- `Translate.translate` (translate.py lines 39-89), parameterized over
the supported-language set `LANGUAGES` (membership test `langs`) and over
`xenian.bot.utils.get_option_from_string` (`getOpt`, returning the pair
`(value, text without the option)`), which is outside the two embedded
source files.  `reply` is the text of the replied-to message when the
invoking message is a reply. -/
def translate_command (langs : String → Bool)
    (getOpt : String → String → Option String × String)
    (reply : Option String) (msg : String) : TranslateOutcome :=
  let secondary : Option String := secondaryOf msg
  if pyTruthy secondary then
    translate_with_secondary langs getOpt reply (secondary.getD "")
  else
    if !(pyTruthy reply) && !(pyTruthy secondary) then .missingInput
    else .invoked (reply.getD "") none none

/-- `request.status_code > 399 or request.status_code < 200`
(danbooru.py line 192): the HEAD-probe statuses that mark an item failed. -/
def badStatus (s : Nat) : Bool := s > 399 || s < 200

/-- One send event of the batch loop of `post_list_send_media_group`:
a media-group attempt with its batch, its outcome, the items HEAD-probed
after a `BadRequest` and the probed items found bad, or a single-photo
attempt. -/
inductive SendEvent (α : Type) where
  | group (batch : List α) (ok : Bool) (probed : List α) (removed : List α)
  | single (a : α) (ok : Bool)
deriving DecidableEq

/-- State of the batch loop: the pending `media_list`, the `errors`
counter, and the trace of send events so far. -/
structure LoopState (α : Type) where
  pending : List α
  errors : Nat
  events : List (SendEvent α)
deriving DecidableEq

/-- Environment of one run of the loop, indexed by iteration number:
whether `bot.send_media_group` succeeds, the HEAD status of each item,
whether `bot.send_photo` succeeds, and the arbitrary order in which
`list(set(media_list) - set(error_list))` returns the surviving items. -/
structure Oracle (α : Type) where
  sendOk : Nat → Bool
  probeStatus : Nat → α → Nat
  singleOk : Nat → Bool
  perm : Nat → List α → List α

/-- The oracle's set-difference reordering returns some permutation of
the list it is given (the only guarantee Python's `list(set(..))` gives). -/
def PermValid {α : Type} (O : Oracle α) : Prop :=
  ∀ n l, List.Perm (O.perm n l) l

/-- One iteration of the `while media_list:` loop of
`post_list_send_media_group` (danbooru.py lines 177-204).  On an empty
pending list nothing happens; on a single item `send_photo` is attempted
and the item removed, a failure only counted; otherwise
`send_media_group(media_list[:10])` is attempted: on success the first
ten items are deleted, on `BadRequest` every batch item is HEAD-probed,
the bad ones are counted and removed, and the pending list is rebuilt in
the arbitrary set order. -/
def step {α : Type} [DecidableEq α] (O : Oracle α) (n : Nat)
    (s : LoopState α) : LoopState α :=
  match s.pending with
  | [] => s
  | [a] =>
    { pending := []
      errors := s.errors + (if O.singleOk n then 0 else 1)
      events := s.events ++ [SendEvent.single a (O.singleOk n)] }
  | a :: b :: rest =>
    let p := a :: b :: rest
    let batch := p.take 10
    if O.sendOk n then
      { pending := p.drop 10
        errors := s.errors
        events := s.events ++ [SendEvent.group batch true [] []] }
    else
      let bad := batch.filter (fun x => badStatus (O.probeStatus n x))
      { pending := O.perm n (p.filter (fun x => decide (x ∉ bad)))
        errors := s.errors + bad.length
        events := s.events ++ [SendEvent.group batch false batch bad] }

/-- `fuel` iterations of the loop starting at absolute iteration `k`. -/
def runF {α : Type} [DecidableEq α] (O : Oracle α) :
    Nat → LoopState α → Nat → LoopState α
  | _, s, 0 => s
  | k, s, Nat.succ n => runF O (k + 1) (step O k s) n

/-- The loop state after `n` iterations from the start. -/
def run {α : Type} [DecidableEq α] (O : Oracle α) (s : LoopState α)
    (n : Nat) : LoopState α :=
  runF O 0 s n

/-- The initial loop state for a collected media list. -/
def initState {α : Type} (L : List α) : LoopState α := ⟨L, 0, []⟩

/-- The items delivered by the successful send events of a trace, in
order. -/
def sentItems {α : Type} : List (SendEvent α) → List α
  | [] => []
  | SendEvent.group b ok _ _ :: es => (if ok then b else []) ++ sentItems es
  | SendEvent.single a ok :: es => (if ok then [a] else []) ++ sentItems es

/-- The items of a send attempt. -/
def attemptItems {α : Type} : SendEvent α → List α
  | SendEvent.group b _ _ _ => b
  | SendEvent.single a _ => [a]

/-- The items of the send attempt made at iteration `m` of the run on the
collected list `L` (empty when the loop already drained). -/
def attemptsAt {α : Type} [DecidableEq α] (O : Oracle α) (L : List α)
    (m : Nat) : List α :=
  (((run O (initState L) (m + 1)).events.drop
      (run O (initState L) m).events.length).map attemptItems).flatten


section BatchLoopLemmas

variable {α : Type} [DecidableEq α]

/-- The items of the current batch probed bad on a failed group send. -/
def badOf (O : Oracle α) (n : Nat) (p : List α) : List α :=
  (p.take 10).filter (fun y => badStatus (O.probeStatus n y))

theorem step_eq_nil (O : Oracle α) (n : Nat) (s : LoopState α)
    (h : s.pending = []) : step O n s = s := by
  unfold step
  rw [h]

theorem step_eq_single (O : Oracle α) (n : Nat) (s : LoopState α) (a : α)
    (h : s.pending = [a]) :
    step O n s =
      ⟨[], s.errors + (if O.singleOk n then 0 else 1),
        s.events ++ [SendEvent.single a (O.singleOk n)]⟩ := by
  unfold step
  rw [h]

theorem step_eq_group_ok (O : Oracle α) (n : Nat) (s : LoopState α)
    (a b : α) (rest : List α) (h : s.pending = a :: b :: rest)
    (hs : O.sendOk n = true) :
    step O n s =
      ⟨(a :: b :: rest).drop 10, s.errors,
        s.events ++ [SendEvent.group ((a :: b :: rest).take 10) true [] []]⟩ := by
  unfold step
  rw [h]
  simp only [hs, if_true]

theorem step_eq_group_fail (O : Oracle α) (n : Nat) (s : LoopState α)
    (a b : α) (rest : List α) (h : s.pending = a :: b :: rest)
    (hs : O.sendOk n = false) :
    step O n s =
      ⟨O.perm n ((a :: b :: rest).filter
          (fun x => decide (x ∉ badOf O n (a :: b :: rest)))),
        s.errors + (badOf O n (a :: b :: rest)).length,
        s.events ++ [SendEvent.group ((a :: b :: rest).take 10) false
          ((a :: b :: rest).take 10) (badOf O n (a :: b :: rest))]⟩ := by
  unfold step badOf
  rw [h]
  simp only [hs, Bool.false_eq_true, if_false]

theorem runF_succ_back (O : Oracle α) (k : Nat) (s : LoopState α) :
    ∀ n, runF O k s (n + 1) = step O (k + n) (runF O k s n) := by
  intro n
  induction n generalizing k s with
  | zero => simp [runF]
  | succ n ih =>
    show runF O (k + 1) (step O k s) (n + 1) = _
    rw [ih]
    show step O (k + 1 + n) (runF O (k + 1) (step O k s) n) =
      step O (k + (n + 1)) (runF O (k + 1) (step O k s) n)
    congr 1
    omega

theorem run_succ (O : Oracle α) (s : LoopState α) (n : Nat) :
    run O s (n + 1) = step O n (run O s n) := by
  have h := runF_succ_back O 0 s n
  simpa [run] using h

theorem runF_add (O : Oracle α) (m : Nat) :
    ∀ (k : Nat) (s : LoopState α) (n : Nat),
      runF O k s (m + n) = runF O (k + m) (runF O k s m) n := by
  induction m with
  | zero => intro k s n; simp [runF]
  | succ m ih =>
    intro k s n
    have h1 : m + 1 + n = (m + n) + 1 := by omega
    rw [h1]
    show runF O (k + 1) (step O k s) (m + n) =
      runF O (k + (m + 1)) (runF O (k + 1) (step O k s) m) n
    rw [ih (k + 1) (step O k s) n]
    congr 1
    omega

theorem runF_pending_empty (O : Oracle α) (s : LoopState α)
    (h : s.pending = []) : ∀ k n, runF O k s n = s := by
  intro k n
  induction n generalizing k with
  | zero => rfl
  | succ n ih =>
    show runF O (k + 1) (step O k s) n = s
    rw [step_eq_nil O k s h]
    exact ih (k + 1)

theorem step_pending_subset (O : Oracle α) (hO : PermValid O) (n : Nat)
    (s : LoopState α) : ∀ x ∈ (step O n s).pending, x ∈ s.pending := by
  intro x hx
  rcases hp : s.pending with _ | ⟨a, t⟩
  · rw [step_eq_nil O n s hp] at hx
    rw [hp] at hx
    exact hx
  rcases t with _ | ⟨b, rest⟩
  · rw [step_eq_single O n s a hp] at hx
    simp at hx
  by_cases hs : O.sendOk n = true
  · rw [step_eq_group_ok O n s a b rest hp hs] at hx
    exact List.drop_subset 10 (a :: b :: rest) hx
  · rw [step_eq_group_fail O n s a b rest hp
      (Bool.not_eq_true _ ▸ hs)] at hx
    have hperm := hO n ((a :: b :: rest).filter
      (fun x => decide (x ∉ badOf O n (a :: b :: rest))))
    exact List.mem_of_mem_filter (hperm.mem_iff.mp hx)

theorem run_pending_mono (O : Oracle α) (hO : PermValid O)
    (s : LoopState α) (m : Nat) :
    ∀ d, ∀ x ∈ (run O s (m + d)).pending, x ∈ (run O s m).pending := by
  intro d
  induction d with
  | zero => intro x hx; exact hx
  | succ d ih =>
    intro x hx
    have h1 : m + (d + 1) = (m + d) + 1 := by omega
    rw [h1, run_succ] at hx
    exact ih x (step_pending_subset O hO (m + d) _ x hx)

theorem events_drop_diff (es : List (SendEvent α)) (e : SendEvent α) :
    (es ++ [e]).drop es.length = [e] :=
  List.drop_left es [e]

theorem attemptsAt_subset (O : Oracle α) (L : List α) (m : Nat) :
    ∀ x ∈ attemptsAt O L m, x ∈ (run O (initState L) m).pending := by
  intro x hx
  unfold attemptsAt at hx
  rw [run_succ] at hx
  set s := run O (initState L) m with hs
  rcases hp : s.pending with _ | ⟨a, t⟩
  · rw [step_eq_nil O m s hp] at hx
    simp at hx
  rcases t with _ | ⟨b, rest⟩
  · rw [step_eq_single O m s a hp] at hx
    rw [events_drop_diff] at hx
    simp only [List.map_cons, List.map_nil, attemptItems, List.flatten_cons,
      List.flatten_nil, List.append_nil] at hx
    simpa using hx
  by_cases hsend : O.sendOk m = true
  · rw [step_eq_group_ok O m s a b rest hp hsend] at hx
    rw [events_drop_diff] at hx
    simp only [List.map_cons, List.map_nil, attemptItems, List.flatten_cons,
      List.flatten_nil, List.append_nil] at hx
    exact List.take_subset 10 (a :: b :: rest) hx
  · rw [step_eq_group_fail O m s a b rest hp
      (Bool.not_eq_true _ ▸ hsend)] at hx
    rw [events_drop_diff] at hx
    simp only [List.map_cons, List.map_nil, attemptItems, List.flatten_cons,
      List.flatten_nil, List.append_nil] at hx
    exact List.take_subset 10 (a :: b :: rest) hx

theorem removed_attempted (O : Oracle α) (hO : PermValid O) (L : List α)
    (k : Nat) (a : α) (hin : a ∈ (run O (initState L) k).pending)
    (hout : a ∉ (run O (initState L) (k + 1)).pending) :
    a ∈ attemptsAt O L k := by
  unfold attemptsAt
  rw [run_succ] at hout ⊢
  set s := run O (initState L) k with hs
  rcases hp : s.pending with _ | ⟨x, t⟩
  · rw [hp] at hin
    exact absurd hin (List.not_mem_nil a)
  rcases t with _ | ⟨y, rest⟩
  · rw [step_eq_single O k s x hp]
    rw [events_drop_diff]
    simp only [List.map_cons, List.map_nil, attemptItems, List.flatten_cons,
      List.flatten_nil, List.append_nil]
    rw [hp] at hin
    simpa using hin
  by_cases hsend : O.sendOk k = true
  · rw [step_eq_group_ok O k s x y rest hp hsend] at hout ⊢
    rw [events_drop_diff]
    simp only [List.map_cons, List.map_nil, attemptItems, List.flatten_cons,
      List.flatten_nil, List.append_nil]
    simp only [] at hout
    rw [hp] at hin
    have hsplit := (List.take_append_drop 10 (x :: y :: rest)).symm
    rw [hsplit] at hin
    rcases List.mem_append.mp hin with h | h
    · exact h
    · exact absurd h hout
  · rw [step_eq_group_fail O k s x y rest hp
      (Bool.not_eq_true _ ▸ hsend)] at hout ⊢
    rw [events_drop_diff]
    simp only [List.map_cons, List.map_nil, attemptItems, List.flatten_cons,
      List.flatten_nil, List.append_nil]
    simp only [] at hout
    rw [hp] at hin
    have hperm := hO k ((x :: y :: rest).filter
      (fun z => decide (z ∉ badOf O k (x :: y :: rest))))
    have hnf : a ∉ (x :: y :: rest).filter
        (fun z => decide (z ∉ badOf O k (x :: y :: rest))) :=
      fun hmem => hout (hperm.mem_iff.mpr hmem)
    have habad : a ∈ badOf O k (x :: y :: rest) := by
      by_contra hno
      exact hnf (List.mem_filter.mpr ⟨hin, by simpa using hno⟩)
    exact List.mem_of_mem_filter habad

theorem eventually_attempted (O : Oracle α) (hO : PermValid O) (L : List α)
    (K : Nat) (hK : (run O (initState L) K).pending = []) :
    ∀ d k a, K - k ≤ d → a ∈ (run O (initState L) k).pending →
      ∃ m, k ≤ m ∧ a ∈ attemptsAt O L m := by
  have hstable : ∀ k, K ≤ k → (run O (initState L) k).pending = [] := by
    intro k hk
    have h1 : k = K + (k - K) := by omega
    rw [h1]
    show (runF O 0 (initState L) (K + (k - K))).pending = []
    rw [runF_add]
    have h2 : runF O (0 + K) (runF O 0 (initState L) K) (k - K) =
        runF O 0 (initState L) K :=
      runF_pending_empty O _ hK _ _
    rw [h2]
    exact hK
  intro d
  induction d with
  | zero =>
    intro k a hle hin
    rw [hstable k (by omega)] at hin
    exact absurd hin (List.not_mem_nil a)
  | succ d ih =>
    intro k a hle hin
    by_cases hnext : a ∈ (run O (initState L) (k + 1)).pending
    · have hkK : k < K := by
        by_contra hge
        rw [hstable k (by omega)] at hin
        exact absurd hin (List.not_mem_nil a)
      obtain ⟨m, hm1, hm2⟩ := ih (k + 1) a (by omega) hnext
      exact ⟨m, by omega, hm2⟩
    · exact ⟨k, Nat.le_refl k, removed_attempted O hO L k a hin hnext⟩

theorem sentItems_append (es fs : List (SendEvent α)) :
    sentItems (es ++ fs) = sentItems es ++ sentItems fs := by
  induction es with
  | nil => rfl
  | cons e es ih =>
    cases e <;> simp [sentItems, ih]

end BatchLoopLemmas

section TerminationLemmas

variable {α : Type} [DecidableEq α]

theorem step_pending_length_lt (O : Oracle α) (hO : PermValid O) (n : Nat)
    (s : LoopState α) (hne : s.pending ≠ [])
    (hprog : s.pending.length > 1 → O.sendOk n = false →
      ∃ a ∈ s.pending.take 10, badStatus (O.probeStatus n a) = true) :
    (step O n s).pending.length < s.pending.length := by
  rcases hp : s.pending with _ | ⟨a, t⟩
  · exact absurd hp hne
  rcases t with _ | ⟨b, rest⟩
  · rw [step_eq_single O n s a hp]
    simp
  by_cases hs : O.sendOk n = true
  · rw [step_eq_group_ok O n s a b rest hp hs]
    simp only [List.length_drop, List.length_cons]
    omega
  · have hs' : O.sendOk n = false := Bool.not_eq_true _ ▸ hs
    rw [step_eq_group_fail O n s a b rest hp hs']
    obtain ⟨x, hx1, hx2⟩ := hprog (by rw [hp]; simp) hs'
    rw [hp] at hx1
    have hxbad : x ∈ badOf O n (a :: b :: rest) :=
      List.mem_filter.mpr ⟨hx1, hx2⟩
    have hxin : x ∈ a :: b :: rest := List.take_subset 10 _ hx1
    have hlt : ((a :: b :: rest).filter
        (fun z => decide (z ∉ badOf O n (a :: b :: rest)))).length <
        (a :: b :: rest).length := by
      refine List.length_filter_lt_length_iff_exists.mpr ⟨x, hxin, ?_⟩
      simp [hxbad]
    have hpl : (O.perm n ((a :: b :: rest).filter
        (fun z => decide (z ∉ badOf O n (a :: b :: rest))))).length =
        ((a :: b :: rest).filter
          (fun z => decide (z ∉ badOf O n (a :: b :: rest)))).length :=
      (hO n _).length_eq
    simp only [LoopState.pending]
    rw [hpl]
    exact hlt

theorem run_terminates_of_progress (O : Oracle α) (hO : PermValid O)
    (L : List α)
    (hprog : ∀ n, (run O (initState L) n).pending.length > 1 →
      O.sendOk n = false →
      ∃ a ∈ (run O (initState L) n).pending.take 10,
        badStatus (O.probeStatus n a) = true) :
    (run O (initState L) L.length).pending = [] := by
  have key : ∀ n, (run O (initState L) n).pending = [] ∨
      (run O (initState L) n).pending.length + n ≤ L.length := by
    intro n
    induction n with
    | zero => right; simp [run, runF, initState]
    | succ n ih =>
      rcases ih with h | h
      · left
        rw [run_succ]
        rw [step_eq_nil O n _ h]
        exact h
      · by_cases hne : (run O (initState L) n).pending = []
        · left
          rw [run_succ, step_eq_nil O n _ hne]
          exact hne
        · right
          have := step_pending_length_lt O hO n (run O (initState L) n) hne
            (hprog n)
          rw [run_succ]
          omega
  rcases key L.length with h | h
  · exact h
  · have : (run O (initState L) L.length).pending.length = 0 := by omega
    exact List.eq_nil_of_length_eq_zero this

theorem runF_drain_all_success (O : Oracle α)
    (hsend : ∀ m, O.sendOk m = true) (hsingle : ∀ m, O.singleOk m = true) :
    ∀ (n : Nat) (L : List α), L.length = n → ∀ (k e : Nat)
      (T : List (SendEvent α)),
      (runF O k ⟨L, e, T⟩ L.length).pending = [] ∧
      sentItems (runF O k ⟨L, e, T⟩ L.length).events = sentItems T ++ L := by
  intro n
  induction n using Nat.strong_induction_on with
  | _ n IH =>
    intro L hL k e T
    rcases hLs : L with _ | ⟨a, t⟩
    · constructor
      · rfl
      · show sentItems T = sentItems T ++ []
        simp
    rcases hts : t with _ | ⟨b, rest⟩
    · show ((runF O (k + 1) (step O k ⟨[a], e, T⟩) 0).pending = []) ∧ _
      rw [step_eq_single O k ⟨[a], e, T⟩ a rfl]
      refine ⟨rfl, ?_⟩
      show sentItems (T ++ [SendEvent.single a (O.singleOk k)]) = _
      rw [sentItems_append, hsingle k]
      simp [sentItems]
    -- at least two pending items: a successful batch of up to ten is sent
    subst hts
    have hlen : L.length = rest.length + 2 := by rw [hLs]; simp
    have hstep := step_eq_group_ok O k ⟨a :: b :: rest, e, T⟩ a b rest rfl
      (hsend k)
    have hd : ((a :: b :: rest).drop 10).length < n := by
      have hn : (a :: b :: rest).length = n := by rw [← hLs, hL]
      have h2 : (a :: b :: rest).length = rest.length + 2 := by simp
      have h1 : ((a :: b :: rest).drop 10).length =
          (a :: b :: rest).length - 10 := by simp
      omega
    have hrec := IH ((a :: b :: rest).drop 10).length hd
      ((a :: b :: rest).drop 10) rfl (k + 1) e
      (T ++ [SendEvent.group ((a :: b :: rest).take 10) true [] []])
    have hsplitfuel : rest.length + 1 =
        ((a :: b :: rest).drop 10).length +
        (rest.length + 1 - ((a :: b :: rest).drop 10).length) := by
      have h1 : ((a :: b :: rest).drop 10).length =
          (a :: b :: rest).length - 10 := by simp
      have h2 : (a :: b :: rest).length = rest.length + 2 := by simp
      omega
    have hchain : runF O k ⟨a :: b :: rest, e, T⟩ (a :: b :: rest).length =
        runF O (k + 1 + ((a :: b :: rest).drop 10).length)
          (runF O (k + 1) (step O k ⟨a :: b :: rest, e, T⟩)
            ((a :: b :: rest).drop 10).length)
          (rest.length + 1 - ((a :: b :: rest).drop 10).length) := by
      have h0 : (a :: b :: rest).length = (rest.length + 1) + 1 := by
        simp
      rw [h0]
      show runF O (k + 1) (step O k ⟨a :: b :: rest, e, T⟩)
          (rest.length + 1) = _
      rw [hsplitfuel, runF_add]
      rw [← hsplitfuel]
    rw [hchain, hstep]
    have hrecpend := hrec.1
    have hrecsent := hrec.2
    have hfinal : runF O (k + 1 + ((a :: b :: rest).drop 10).length)
        (runF O (k + 1)
          ⟨(a :: b :: rest).drop 10, e,
            T ++ [SendEvent.group ((a :: b :: rest).take 10) true [] []]⟩
          ((a :: b :: rest).drop 10).length)
        (rest.length + 1 - ((a :: b :: rest).drop 10).length) =
        runF O (k + 1)
          ⟨(a :: b :: rest).drop 10, e,
            T ++ [SendEvent.group ((a :: b :: rest).take 10) true [] []]⟩
          ((a :: b :: rest).drop 10).length :=
      runF_pending_empty O _ hrecpend _ _
    rw [hfinal]
    refine ⟨hrecpend, ?_⟩
    rw [hrecsent, sentItems_append]
    simp [sentItems, List.append_assoc]

end TerminationLemmas

section ExtractorLemmas

theorem scanAux_skip (name : List Char) (isInt : Bool) :
    ∀ (t : List Char) (k : Nat),
      scanAux name isInt (k + 1) t = scanAux name isInt k (t.drop 1) := by
  intro t k
  cases t with
  | nil => simp [scanAux]
  | cons c cs => simp [scanAux]

theorem scanAux_skip_drop (name : List Char) (isInt : Bool) :
    ∀ (k : Nat) (t : List Char),
      scanAux name isInt k t = scanAux name isInt 0 (t.drop k) := by
  intro k
  induction k with
  | zero => intro t; simp
  | succ k ih =>
    intro t
    rw [scanAux_skip]
    rw [ih (t.drop 1)]
    congr 1
    rw [List.drop_drop]
    congr 1
    omega

theorem scan_no_match_residual (name : List Char) (isInt : Bool) :
    ∀ t : List Char, (scanAux name isInt 0 t).1 = [] →
      (scanAux name isInt 0 t).2 = t := by
  intro t
  induction t with
  | nil => intro _; rfl
  | cons c cs ih =>
    intro h
    cases hm : matchAt name isInt (c :: cs) with
    | some m =>
      exfalso
      unfold scanAux at h
      rw [hm] at h
      simp at h
    | none =>
      unfold scanAux at h ⊢
      rw [hm] at h ⊢
      simp at h ⊢
      exact ih h

theorem scan_single_match_residual (name : List Char) (isInt : Bool) :
    ∀ (t : List Char) (m : List Char), (scanAux name isInt 0 t).1 = [m] →
      (scanAux name isInt 0 t).2 = removeFirstMatchSpec name isInt t := by
  intro t
  induction t with
  | nil => intro m h; simp [scanAux] at h
  | cons c cs ih =>
    intro m h
    cases hm : matchAt name isInt (c :: cs) with
    | some m0 =>
      unfold scanAux at h ⊢
      rw [hm] at h ⊢
      simp at h ⊢
      unfold removeFirstMatchSpec
      rw [hm]
      have hrest : (scanAux name isInt (m0.length - 1) cs).1 = [] := by
        have := h.2
        exact this
      rw [scanAux_skip_drop] at hrest ⊢
      exact scan_no_match_residual name isInt _ hrest
    | none =>
      unfold scanAux at h ⊢
      rw [hm] at h ⊢
      simp at h ⊢
      unfold removeFirstMatchSpec
      rw [hm]
      simp
      exact ih m h

theorem digitRunsAux_nil_cons (d : Char) (ds : List Char) :
    digitRunsAux [] (d :: ds) =
      if isDigitChar d then digitRunsAux [d] ds else digitRunsAux [] ds := by
  by_cases hd : isDigitChar d = true
  · rw [digitRunsAux, if_pos hd, if_pos hd]
  · rw [digitRunsAux, if_neg hd, if_neg hd]
    simp

theorem digitRunsAux_cons (cur : List Char) (hcur : cur ≠ []) :
    ∀ t : List Char,
      digitRunsAux cur t =
        (cur.reverse ++ t.takeWhile isDigitChar) ::
          digitRunsAux [] (t.dropWhile isDigitChar) := by
  intro t
  induction t generalizing cur with
  | nil =>
    unfold digitRunsAux
    simp [hcur]
  | cons c cs ih =>
    by_cases hd : isDigitChar c = true
    · rw [digitRunsAux, if_pos hd]
      rw [ih (c :: cur) (by simp)]
      rw [List.takeWhile_cons, List.dropWhile_cons]
      simp [hd]
    · have hd' : isDigitChar c = false := Bool.not_eq_true _ ▸ hd
      rw [digitRunsAux, if_neg hd]
      rw [if_neg (by simp [hcur])]
      rw [List.takeWhile_cons, List.dropWhile_cons]
      simp only [hd', Bool.false_eq_true, if_false]
      rw [digitRunsAux_nil_cons, if_neg hd]
      simp

theorem digitRuns_head (s : List Char) :
    (digitRuns s).head? =
      if (firstMaximalDigitRun s).isEmpty then none
      else some (firstMaximalDigitRun s) := by
  induction s with
  | nil => simp [digitRuns, digitRunsAux, firstMaximalDigitRun]
  | cons c cs ih =>
    by_cases hd : isDigitChar c = true
    · show (digitRunsAux [] (c :: cs)).head? = _
      rw [digitRunsAux_nil_cons, if_pos hd]
      rw [digitRunsAux_cons [c] (by simp) cs]
      unfold firstMaximalDigitRun
      simp [List.dropWhile_cons, List.takeWhile_cons, hd]
    · have hd' : isDigitChar c = false := Bool.not_eq_true _ ▸ hd
      have h1 : digitRuns (c :: cs) = digitRuns cs := by
        show digitRunsAux [] (c :: cs) = digitRunsAux [] cs
        rw [digitRunsAux_nil_cons, if_neg hd]
      have h2 : firstMaximalDigitRun (c :: cs) = firstMaximalDigitRun cs := by
        unfold firstMaximalDigitRun
        rw [List.dropWhile_cons]
        simp [hd']
      rw [h1, h2]
      exact ih

end ExtractorLemmas

section TermFilterLemmas

/-- The normalization applied to each term by `filter_terms`. -/
def normTerm (t : List Char) : List Char :=
  replaceSpace (pyStrip (subNonAlphanum t))

theorem wordChar_underscore : isWordChar '_' = true := by decide

theorem wordChar_not_space (c : Char) (h : isWordChar c = true) :
    c.toNat ≠ 32 := by
  unfold isWordChar at h
  simp only [Bool.or_eq_true, Bool.and_eq_true, decide_eq_true_eq,
    beq_iff_eq] at h
  omega

theorem wordChar_not_pySpace (c : Char) (h : isWordChar c = true) :
    isPySpace c = false := by
  unfold isWordChar at h
  simp only [Bool.or_eq_true, Bool.and_eq_true, decide_eq_true_eq,
    beq_iff_eq] at h
  rw [Bool.eq_false_iff]
  intro hc
  unfold isPySpace at hc
  simp only [Bool.or_eq_true, Bool.and_eq_true, decide_eq_true_eq,
    beq_iff_eq] at hc
  omega

theorem mem_dropWhile_mem {α : Type} (p : α → Bool) :
    ∀ (l : List α) (x : α), x ∈ l.dropWhile p → x ∈ l := by
  intro l
  induction l with
  | nil => intro x hx; simpa using hx
  | cons c cs ih =>
    intro x hx
    rw [List.dropWhile_cons] at hx
    by_cases hc : p c = true
    · rw [if_pos hc] at hx
      exact List.mem_cons_of_mem c (ih x hx)
    · rw [if_neg hc] at hx
      exact hx

theorem mem_pyStrip_mem (t : List Char) (x : Char) (hx : x ∈ pyStrip t) :
    x ∈ t := by
  unfold pyStrip at hx
  rw [List.mem_reverse] at hx
  have h1 := mem_dropWhile_mem isPySpace _ x hx
  rw [List.mem_reverse] at h1
  exact mem_dropWhile_mem isPySpace t x h1

theorem mem_normTerm_word (t : List Char) (x : Char) (hx : x ∈ normTerm t) :
    isWordChar x = true := by
  unfold normTerm replaceSpace at hx
  rw [List.mem_map] at hx
  obtain ⟨d, hd1, hd2⟩ := hx
  have hd3 : d ∈ subNonAlphanum t := mem_pyStrip_mem _ d hd1
  unfold subNonAlphanum at hd3
  have hd4 := List.of_mem_filter hd3
  simp only [Bool.or_eq_true, beq_iff_eq] at hd4
  by_cases hsp : d.toNat = 32
  · rw [← hd2]
    rw [if_pos (by simp [hsp])]
    exact wordChar_underscore
  · rcases hd4 with h | h
    · rw [← hd2]
      simp only [beq_iff_eq, hsp, if_false]
      exact h
    · exact absurd h hsp

theorem dropWhile_eq_self_of_head (p : Char → Bool) (t : List Char)
    (h : ∀ c ∈ t, p c = false) : t.dropWhile p = t := by
  cases t with
  | nil => rfl
  | cons c cs =>
    rw [List.dropWhile_cons, if_neg (by simp [h c (List.mem_cons_self c cs)])]

theorem normTerm_id_of_word (t : List Char)
    (h : ∀ c ∈ t, isWordChar c = true) : normTerm t = t := by
  unfold normTerm
  have hsub : subNonAlphanum t = t := by
    unfold subNonAlphanum
    refine List.filter_eq_self.mpr ?_
    intro c hc
    simp [h c hc]
  rw [hsub]
  have hstrip : pyStrip t = t := by
    unfold pyStrip
    rw [dropWhile_eq_self_of_head isPySpace t
      (fun c hc => wordChar_not_pySpace c (h c hc))]
    rw [dropWhile_eq_self_of_head isPySpace t.reverse
      (fun c hc => wordChar_not_pySpace c (h c (List.mem_reverse.mp hc)))]
    exact List.reverse_reverse t
  rw [hstrip]
  unfold replaceSpace
  have : ∀ c ∈ t, (if c.toNat == 32 then '_' else c) = c := by
    intro c hc
    rw [if_neg (by simp [wordChar_not_space c (h c hc)])]
  rw [List.map_congr_left this]
  simp

theorem mem_dedupKeepFirstAux (seen : List (List Char)) :
    ∀ (l : List (List Char)) (x : List Char),
      x ∈ dedupKeepFirstAux seen l → x ∈ l := by
  intro l
  induction l generalizing seen with
  | nil => intro x hx; simpa [dedupKeepFirstAux] using hx
  | cons t ts ih =>
    intro x hx
    unfold dedupKeepFirstAux at hx
    by_cases hseen : t ∈ seen
    · rw [if_pos hseen] at hx
      exact List.mem_cons_of_mem t (ih seen x hx)
    · rw [if_neg hseen] at hx
      rcases List.mem_cons.mp hx with h | h
      · rw [h]; exact List.mem_cons_self t ts
      · exact List.mem_cons_of_mem t (ih (t :: seen) x h)

theorem dedupKeepFirstAux_not_seen (seen : List (List Char)) :
    ∀ (l : List (List Char)) (x : List Char),
      x ∈ dedupKeepFirstAux seen l → x ∉ seen := by
  intro l
  induction l generalizing seen with
  | nil => intro x hx; simp [dedupKeepFirstAux] at hx
  | cons t ts ih =>
    intro x hx
    unfold dedupKeepFirstAux at hx
    by_cases hseen : t ∈ seen
    · rw [if_pos hseen] at hx
      exact ih seen x hx
    · rw [if_neg hseen] at hx
      rcases List.mem_cons.mp hx with h | h
      · rw [h]; exact hseen
      · have := ih (t :: seen) x h
        intro hc
        exact this (List.mem_cons_of_mem t hc)

theorem dedupKeepFirstAux_nodup (seen : List (List Char)) :
    ∀ l : List (List Char), (dedupKeepFirstAux seen l).Nodup := by
  intro l
  induction l generalizing seen with
  | nil => simp [dedupKeepFirstAux]
  | cons t ts ih =>
    unfold dedupKeepFirstAux
    by_cases hseen : t ∈ seen
    · rw [if_pos hseen]
      exact ih seen
    · rw [if_neg hseen]
      refine List.nodup_cons.mpr ⟨?_, ih (t :: seen)⟩
      intro hc
      exact dedupKeepFirstAux_not_seen (t :: seen) ts t hc
        (List.mem_cons_self t seen)

theorem dedupKeepFirstAux_eq_self (seen : List (List Char)) :
    ∀ l : List (List Char), l.Nodup → (∀ x ∈ l, x ∉ seen) →
      dedupKeepFirstAux seen l = l := by
  intro l
  induction l generalizing seen with
  | nil => intro _ _; rfl
  | cons t ts ih =>
    intro hnd hns
    unfold dedupKeepFirstAux
    rw [if_neg (hns t (List.mem_cons_self t ts))]
    congr 1
    refine ih (t :: seen) (List.nodup_cons.mp hnd).2 ?_
    intro x hx
    rw [List.mem_cons]
    push_neg
    refine ⟨?_, hns x (List.mem_cons_of_mem t hx)⟩
    intro he
    exact (List.nodup_cons.mp hnd).1 (he ▸ hx)

theorem mem_dedupKeepFirst (l : List (List Char)) (x : List Char)
    (hx : x ∈ dedupKeepFirst l) : x ∈ l :=
  mem_dedupKeepFirstAux [] l x hx

theorem dedupKeepFirst_nodup (l : List (List Char)) :
    (dedupKeepFirst l).Nodup :=
  dedupKeepFirstAux_nodup [] l

theorem dedupKeepFirst_eq_self (l : List (List Char)) (h : l.Nodup) :
    dedupKeepFirst l = l :=
  dedupKeepFirstAux_eq_self [] l h (fun x _ => List.not_mem_nil x)

theorem filter_terms_eq_norm (ts : List (List Char)) :
    filter_terms ts =
      dedupKeepFirst (((ts.map normTerm).filter (fun t => !(t.isEmpty)))) := by
  have hunfold : filter_terms ts = dedupKeepFirst
      ((((ts.map subNonAlphanum).map pyStrip).map replaceSpace).filter
        (fun t => !(nonAlphanumMatches t) && !(t.isEmpty))) := rfl
  rw [hunfold, List.map_map, List.map_map]
  have hmap : ts.map ((replaceSpace ∘ pyStrip) ∘ subNonAlphanum) =
      ts.map normTerm := by
    refine List.map_congr_left ?_
    intro t _
    rfl
  rw [hmap]
  congr 1
  refine List.filter_congr ?_
  intro t ht
  rw [List.mem_map] at ht
  obtain ⟨u, _, hu⟩ := ht
  have hword : ∀ c ∈ t, isWordChar c = true := by
    intro c hc
    exact mem_normTerm_word u c (hu ▸ hc)
  have hna : nonAlphanumMatches t = false := by
    unfold nonAlphanumMatches
    cases t with
    | nil => rfl
    | cons c cs =>
      simp [hword c (List.mem_cons_self c cs)]
  rw [hna]
  rfl

theorem specAllowed_eq_code_ascii (c : Char) (hc : c.toNat < 128) :
    (isWordChar c || c.toNat == 32) = specAllowedChar c := by
  refine Bool.eq_iff_iff.mpr ?_
  unfold isWordChar specAllowedChar
  simp only [Bool.or_eq_true, Bool.and_eq_true, decide_eq_true_eq,
    beq_iff_eq]
  constructor
  · intro h; omega
  · intro h; omega

end TermFilterLemmas

theorem extract_no_match (name text : List Char) (isInt : Bool)
    (h : (scanMatches name isInt text).1 = []) :
    extract_option_from_string name text isInt = .ok text none := by
  simp only [extract_option_from_string, h]

/-- Claim C3 (counterexample): it is not the case that whenever the option
pattern occurs, `extract_option_from_string` returns the input with exactly
the first matched substring removed: on `page=1 a page=2` the sub removes
both occurrences, returning ` a ` instead of ` a page=2`. -/
theorem claim_C3_counterexample :
    ¬ (∀ (name text : List Char) (isInt : Bool),
        (scanMatches name isInt text).1 ≠ [] →
        ∃ v, extract_option_from_string name text isInt =
          .ok (removeFirstMatchSpec name isInt text) v) := by
  intro h
  obtain ⟨v, hv⟩ := h (strL "page") (strL "page=1 a page=2") true (by decide)
  have h1 : extract_option_from_string (strL "page")
      (strL "page=1 a page=2") true = .ok (strL " a ") (some (.int 1)) := by
    decide
  rw [h1] at hv
  injection hv with h2 h3
  have h4 : removeFirstMatchSpec (strL "page") true
      (strL "page=1 a page=2") = strL " a page=2" := by decide
  rw [h4] at h2
  exact absurd h2 (by decide)

/-- Claim C3 (amended): `pattern.sub` removes every non-overlapping match,
not only the first; when the pattern occurs exactly once in the text, the
residual is the input with exactly that matched substring removed, and for
integer kind the value is the integer read from the digits of the match
(an `IndexError` when the match is digit-free, impossible for a digit-free
name). -/
theorem claim_C3_amended (name text m : List Char)
    (h : (scanMatches name true text).1 = [m]) :
    extract_option_from_string name text true =
      match (digitRuns m).head? with
      | none => .indexError
      | some d => .ok (removeFirstMatchSpec name true text)
          (some (.int (digitsToNat d))) := by
  have hres : (scanMatches name true text).2 =
      removeFirstMatchSpec name true text :=
    scan_single_match_residual name true text m h
  cases hh : (digitRuns m).head? with
  | none => simp only [extract_option_from_string, h, hh]
  | some d =>
    simp only [extract_option_from_string, h, hh, hres, if_true]

/-- Witness for the amended claim C3 at the single-match input
`x page=123 y`. -/
theorem claim_C3_amended_witness :
    extract_option_from_string (strL "page") (strL "x page=123 y") true =
      match (digitRuns (strL "page=123")).head? with
      | none => ExtractResult.indexError
      | some d => .ok (removeFirstMatchSpec (strL "page") true
          (strL "x page=123 y")) (some (.int (digitsToNat d))) :=
  claim_C3_amended (strL "page") (strL "x page=123 y") (strL "page=123")
    (by decide)

/-- Claim C5: `translate_text` builds the direction string exactly per the
four presence combinations of source and target language, and that string
is what is passed to the translation backend. -/
theorem claim_C5_direction (β : Type) (backend : String → String → β)
    (text s t : String) (hs : s ≠ "") (ht : t ≠ "") :
    translate_text backend text none none = backend text "en" ∧
    translate_text backend text (some s) none = backend text (s ++ "-en") ∧
    translate_text backend text (some s) (some t) =
      backend text (s ++ "-" ++ t) ∧
    translate_text backend text none (some t) = backend text t := by
  have hs' : s.isEmpty = false := by
    rw [Bool.eq_false_iff]
    intro hc
    exact hs ((String.isEmpty_iff s).mp hc)
  have ht' : t.isEmpty = false := by
    rw [Bool.eq_false_iff]
    intro hc
    exact ht ((String.isEmpty_iff t).mp hc)
  refine ⟨?_, ?_, ?_, ?_⟩ <;>
    simp [translate_text, translate_text_direction, pyTruthy, hs', ht']

/-- Witness for claim C5 with a pair-building backend and the codes
`fr`, `de`. -/
theorem claim_C5_direction_witness :
    translate_text Prod.mk "hi" none none = Prod.mk "hi" "en" ∧
    translate_text Prod.mk "hi" (some "fr") none =
      Prod.mk "hi" ("fr" ++ "-en") ∧
    translate_text Prod.mk "hi" (some "fr") (some "de") =
      Prod.mk "hi" ("fr" ++ "-" ++ "de") ∧
    translate_text Prod.mk "hi" none (some "de") = Prod.mk "hi" "de" :=
  claim_C5_direction (String × String) Prod.mk "hi" "fr" "de" (by decide)
    (by decide)

/-- Claim C6 (counterexample): `filter_terms` does not normalize every
term to the class `[A-Za-z0-9_ ]`: the code's class is Python 3's
Unicode-aware `\w` plus space, so on the term `café!` it keeps the
word character `é` and returns `café`, while the claimed class demands
`caf`. -/
theorem claim_C6_counterexample :
    ¬ (∀ ts, filter_terms ts = filterTermsSpec ts) := by
  intro h
  exact absurd (h [strL "café!"]) (by decide)

/-- Claim C6 (amended): for term lists of ASCII characters, where
Python's `\w` and the claimed class agree, `filter_terms` performs
exactly the claimed normalization (strip characters outside
`[A-Za-z0-9_ ]`, trim, underscore spaces, drop empties, deduplicate
keeping first occurrences), and on the concrete example of the spec it
returns `["foo", "bar_baz"]`; on non-ASCII input the code keeps every
Unicode word character instead. -/
theorem claim_C6_filter_terms_ascii :
    (∀ ts : List (List Char), (∀ t ∈ ts, ∀ c ∈ t, c.toNat < 128) →
      filter_terms ts = filterTermsSpec ts) ∧
    filter_terms [strL "foo!", strL "foo", strL "  bar baz  ", strL ""] =
      [strL "foo", strL "bar_baz"] := by
  constructor
  · intro ts hascii
    rw [filter_terms_eq_norm]
    unfold filterTermsSpec
    congr 1
    congr 1
    refine List.map_congr_left ?_
    intro t ht
    unfold normTerm subNonAlphanum
    congr 2
    exact List.filter_congr
      (fun c hc => specAllowed_eq_code_ascii c (hascii t ht c hc))
  · decide

/-- Witness for the amended claim C6 at a concrete ASCII term list. -/
theorem claim_C6_filter_terms_ascii_witness :
    filter_terms [strL "a!b", strL "a!b", strL " c d "] =
      filterTermsSpec [strL "a!b", strL "a!b", strL " c d "] :=
  claim_C6_filter_terms_ascii.1 [strL "a!b", strL "a!b", strL " c d "]
    (by decide)

/-- Claim C7: `filter_terms` is idempotent. -/
theorem claim_C7_filter_terms_idempotent (ts : List (List Char)) :
    filter_terms (filter_terms ts) = filter_terms ts := by
  have hout : ∀ t ∈ filter_terms ts, ∀ c ∈ t, isWordChar c = true := by
    intro t ht c hc
    rw [filter_terms_eq_norm] at ht
    have h1 := mem_dedupKeepFirst _ t ht
    have h2 := List.mem_of_mem_filter h1
    rw [List.mem_map] at h2
    obtain ⟨u, _, hu⟩ := h2
    exact mem_normTerm_word u c (hu ▸ hc)
  rw [filter_terms_eq_norm (filter_terms ts)]
  have hmapid : (filter_terms ts).map normTerm = filter_terms ts := by
    rw [List.map_congr_left
      (fun t ht => normTerm_id_of_word t (hout t ht))]
    simp
  rw [hmapid]
  have hfilterid : (filter_terms ts).filter (fun t => !(t.isEmpty)) =
      filter_terms ts := by
    refine List.filter_eq_self.mpr ?_
    intro t ht
    rw [filter_terms_eq_norm] at ht
    exact (List.mem_filter.mp (mem_dedupKeepFirst _ t ht)).2
  rw [hfilterid]
  refine dedupKeepFirst_eq_self _ ?_
  rw [filter_terms_eq_norm]
  exact dedupKeepFirst_nodup _

/-- Witness for claim C7 at a concrete term list. -/
theorem claim_C7_filter_terms_idempotent_witness :
    filter_terms (filter_terms [strL "x y", strL "x_y", strL "!"]) =
      filter_terms [strL "x y", strL "x_y", strL "!"] :=
  claim_C7_filter_terms_idempotent [strL "x y", strL "x_y", strL "!"]

/-- Claim C9: the limit of the query passed to the image-board backend is
clamped to at most 100 (to exactly 100 when the built limit exceeds 100),
and the page of the built query is 0 when no page option occurs in the
input text. -/
theorem claim_C9_limit_clamp_page_default (args : List Char) (q : Query)
    (h : search_build_query args = .built q) :
    (post_list_clamp q).limit ≤ 100 ∧
    (100 < q.limit → (post_list_clamp q).limit = 100) ∧
    ((scanMatches (strL "page") true args).1 = [] → q.page = 0) := by
  refine ⟨?_, ?_, ?_⟩
  · unfold post_list_clamp
    by_cases hl : q.limit > 100
    · rw [if_pos hl]
    · rw [if_neg hl]
      omega
  · intro hl
    unfold post_list_clamp
    rw [if_pos hl]
  · intro hnp
    unfold search_build_query at h
    by_cases hempty : args.isEmpty = true
    · rw [if_pos hempty] at h
      simp at h
    · rw [if_neg hempty] at h
      rw [extract_no_match (strL "page") args true hnp] at h
      rcases hlim : extract_option_from_string (strL "limit") args true with
        _ | ⟨t2, limitV⟩
      · simp only [hlim] at h
        exact BuildResult.noConfusion h
      · simp only [hlim, BuildResult.built.injEq] at h
        rw [← h]
        rfl

/-- Witness for claim C9 at the input `foo limit=200`. -/
theorem claim_C9_limit_clamp_page_default_witness :
    (post_list_clamp ⟨200, 0, strL "foo"⟩).limit ≤ 100 ∧
    (100 < (⟨200, 0, strL "foo"⟩ : Query).limit →
      (post_list_clamp ⟨200, 0, strL "foo"⟩).limit = 100) ∧
    ((scanMatches (strL "page") true (strL "foo limit=200")).1 = [] →
      (⟨200, 0, strL "foo"⟩ : Query).page = 0) :=
  claim_C9_limit_clamp_page_default (strL "foo limit=200")
    ⟨200, 0, strL "foo"⟩ (by decide)

/-- Claim C10: with a non-integer kind, when the pattern matches, the
returned value is the first maximal digit run inside the matched
substring, and when the match contains no digit the call raises an
uncaught `IndexError`. -/
theorem claim_C10_nonint_value_is_digit_run (name text m : List Char)
    (ms : List (List Char))
    (h : (scanMatches name false text).1 = m :: ms) :
    (firstMaximalDigitRun m = [] →
      extract_option_from_string name text false = .indexError) ∧
    (firstMaximalDigitRun m ≠ [] →
      extract_option_from_string name text false =
        .ok (scanMatches name false text).2
          (some (.str (firstMaximalDigitRun m)))) := by
  have hhead := digitRuns_head m
  constructor
  · intro hempty
    have hh : (digitRuns m).head? = none := by
      rw [hhead, hempty]
      simp
    simp only [extract_option_from_string, h, hh]
  · intro hne
    have hne' : (firstMaximalDigitRun m).isEmpty = false := by
      rw [Bool.eq_false_iff]
      intro hc
      exact hne (List.isEmpty_iff.mp hc)
    have hh : (digitRuns m).head? = some (firstMaximalDigitRun m) := by
      rw [hhead, hne']
      simp
    simp only [extract_option_from_string, h, hh, Bool.false_eq_true,
      if_false]

/-- Witness for claim C10: `lf=en` matches with word kind, contains no
digit, and the call ends in the `IndexError`. -/
theorem claim_C10_nonint_value_is_digit_run_witness :
    extract_option_from_string (strL "lf") (strL "hello lf=en") false =
      ExtractResult.indexError :=
  (claim_C10_nonint_value_is_digit_run (strL "lf") (strL "hello lf=en")
    (strL "lf=en") [] (by decide)).1 (by decide)

/-- Oracle under which every multi-item send fails with `BadRequest` and
every HEAD probe answers 200: the recovery step then removes nothing. -/
def stuckOracle : Oracle Nat :=
  ⟨fun _ => false, fun _ _ => 200, fun _ => true, fun _ l => l⟩

theorem stuckOracle_pending (n : Nat) :
    (run stuckOracle (initState [0, 1]) n).pending = [0, 1] := by
  induction n with
  | zero => rfl
  | succ n ih =>
    rw [run_succ]
    rw [step_eq_group_fail stuckOracle n _ 0 1 [] ih rfl]
    simp [badOf, badStatus, stuckOracle]

/-- Claim C1 (counterexample): the batch loop does not terminate for every
finite pending list: under an environment in which the multi-item send
always fails and every probed item's HEAD status is 200, no item is ever
removed and the pending list `[0, 1]` persists forever. -/
theorem claim_C1_counterexample :
    ¬ (∀ (L : List Nat) (O : Oracle Nat), PermValid O →
        ∃ n, (run O (initState L) n).pending = []) := by
  intro h
  obtain ⟨n, hn⟩ := h [0, 1] stuckOracle (fun _ _ => List.Perm.refl _)
  rw [stuckOracle_pending n] at hn
  exact List.noConfusion hn

/-- Claim C1 (amended): the loop terminates — within one iteration per
initially collected item — provided every failed multi-item send probes at
least one item with HEAD status outside `[200, 399]`, so that every
iteration removes at least one pending item. -/
theorem claim_C1_loop_terminates (L : List Nat) (O : Oracle Nat)
    (hO : PermValid O)
    (hprog : ∀ n, (run O (initState L) n).pending.length > 1 →
      O.sendOk n = false →
      ∃ a ∈ (run O (initState L) n).pending.take 10,
        badStatus (O.probeStatus n a) = true) :
    (run O (initState L) L.length).pending = [] :=
  run_terminates_of_progress O hO L hprog

/-- Oracle under which every send succeeds. -/
def drainOracle : Oracle Nat :=
  ⟨fun _ => true, fun _ _ => 200, fun _ => true, fun _ l => l⟩

/-- Witness for the amended claim C1 on the list `[5, 6]`. -/
theorem claim_C1_loop_terminates_witness :
    (run drainOracle (initState [5, 6]) 2).pending = [] :=
  claim_C1_loop_terminates [5, 6] drainOracle (fun _ _ => List.Perm.refl _)
    (fun _ _ hfalse => absurd hfalse (by simp [drainOracle]))

/-- Oracle whose first iteration fails with all probes good and whose
set-difference rebuild reverses the surviving list. -/
def reorderOracle : Oracle Nat :=
  ⟨fun n => !(n == 0), fun _ _ => 250, fun _ => true,
   fun n l => if n == 0 then l.reverse else l⟩

theorem reorderOracle_perm_valid : PermValid reorderOracle := by
  intro n l
  show List.Perm (if n == 0 then l.reverse else l) l
  by_cases h : (n == 0) = true
  · rw [if_pos h]
    exact l.reverse_perm
  · rw [if_neg h]

/-- Claim C2 (counterexample): after a batch-rejected recovery step the
surviving items are not sent in collected order: the pending list is
rebuilt from a set difference whose order is arbitrary, and under a
reversing rebuild the items `0` and `1` of the collected list
`[0, …, 11]` are delivered in swapped relative order. -/
theorem claim_C2_counterexample :
    ¬ (∀ (L : List Nat) (O : Oracle Nat) (n : Nat), PermValid O →
        ∀ a b : Nat,
          a ∈ sentItems (run O (initState L) n).events →
          b ∈ sentItems (run O (initState L) n).events →
          L.indexOf a < L.indexOf b →
          (sentItems (run O (initState L) n).events).indexOf a <
            (sentItems (run O (initState L) n).events).indexOf b) := by
  intro h
  have h1 := h [0, 1, 2, 3, 4, 5, 6, 7, 8, 9, 10, 11] reorderOracle 3
    reorderOracle_perm_valid 0 1 (by decide) (by decide) (by decide)
  exact absurd h1 (by decide)

/-- Claim C2 (amended): in an invocation in which no send fails, the items
delivered by the batch loop are exactly the collected list, in order. -/
theorem claim_C2_order_preserved (L : List Nat) (O : Oracle Nat)
    (hsend : ∀ m, O.sendOk m = true) (hsingle : ∀ m, O.singleOk m = true) :
    sentItems (run O (initState L) L.length).events = L := by
  have h := (runF_drain_all_success O hsend hsingle L.length L rfl 0 0 []).2
  simpa [run, initState, sentItems] using h

/-- Witness for the amended claim C2 on the list `[1, 2, 3]`. -/
theorem claim_C2_order_preserved_witness :
    sentItems (run drainOracle (initState [1, 2, 3]) 3).events = [1, 2, 3] :=
  claim_C2_order_preserved [1, 2, 3] drainOracle (fun _ => rfl) (fun _ => rfl)

/-- The collected media list of the C4 scenarios: twelve items, so two
items lie beyond the first batch of ten. -/
def mediaTwelve : List Nat := [0, 1, 2, 3, 4, 5, 6, 7, 8, 9, 10, 11]

/-- Oracle whose iteration 0 probes item 0 bad and whose sends always
fail with all later probes good: items 10 and 11 stay pending forever and
are never part of any send attempt. -/
def probeDropOracle : Oracle Nat :=
  ⟨fun _ => false, fun n a => if n == 0 && a == 0 then 500 else 200,
   fun _ => true, fun _ l => l⟩

theorem probeDropOracle_pending (m : Nat) :
    (run probeDropOracle (initState mediaTwelve) (m + 1)).pending =
      [1, 2, 3, 4, 5, 6, 7, 8, 9, 10, 11] := by
  induction m with
  | zero => decide
  | succ m ih =>
    rw [run_succ]
    rw [step_eq_group_fail probeDropOracle (m + 1) _ 1 2
      [3, 4, 5, 6, 7, 8, 9, 10, 11] ih rfl]
    simp [badOf, badStatus, probeDropOracle]

theorem probeDropOracle_attempts_succ (m : Nat) :
    attemptsAt probeDropOracle mediaTwelve (m + 1) =
      [1, 2, 3, 4, 5, 6, 7, 8, 9, 10] := by
  unfold attemptsAt
  rw [run_succ probeDropOracle (initState mediaTwelve) (m + 1)]
  rw [step_eq_group_fail probeDropOracle (m + 1) _ 1 2
    [3, 4, 5, 6, 7, 8, 9, 10, 11] (probeDropOracle_pending m) rfl]
  rw [events_drop_diff]
  simp [attemptItems]

/-- Claim C4 (counterexample): it is not the case that after a failed
multi-item send every surviving pending item is retried in a later
iteration: when the sends keep failing with all probes good, an item
beyond the first batch of ten is never part of any send attempt. -/
theorem claim_C4_counterexample :
    ¬ (∀ (L : List Nat) (O : Oracle Nat) (n : Nat), PermValid O →
        (run O (initState L) n).pending.length > 1 → O.sendOk n = false →
        ((run O (initState L) (n + 1)).events =
          (run O (initState L) n).events ++
            [SendEvent.group ((run O (initState L) n).pending.take 10) false
              ((run O (initState L) n).pending.take 10)
              (badOf O n (run O (initState L) n).pending)]) ∧
        ((run O (initState L) (n + 1)).errors =
          (run O (initState L) n).errors +
            (badOf O n (run O (initState L) n).pending).length) ∧
        (∀ a ∈ badOf O n (run O (initState L) n).pending, ∀ m, n < m →
          a ∉ (run O (initState L) m).pending ∧ a ∉ attemptsAt O L m) ∧
        (∀ a ∈ (run O (initState L) n).pending,
          a ∉ badOf O n (run O (initState L) n).pending →
          a ∈ (run O (initState L) (n + 1)).pending) ∧
        (∀ a ∈ (run O (initState L) n).pending,
          a ∉ badOf O n (run O (initState L) n).pending →
          ∃ m, n < m ∧ a ∈ attemptsAt O L m)) := by
  intro h
  have hc := h mediaTwelve probeDropOracle 0 (fun _ _ => List.Perm.refl _)
    (by decide) rfl
  obtain ⟨m, hm, hmem⟩ := hc.2.2.2.2 11 (by decide) (by decide)
  rcases m with _ | m
  · exact Nat.lt_irrefl 0 hm
  · rw [probeDropOracle_attempts_succ m] at hmem
    exact absurd hmem (by decide)

/-- Claim C4 (amended): when a multi-item send of the current batch fails,
exactly the items of that batch are HEAD-probed; every probed item with
status outside `[200, 399]` is counted as failed, removed from the pending
list, and excluded from every later pending list and send attempt; every
other pending item remains pending; and in every run of the loop that
drains the pending list, every such surviving item is part of a later send
attempt. -/
theorem claim_C4_probe_and_remove (L : List Nat) (O : Oracle Nat) (n : Nat)
    (hO : PermValid O)
    (hlen : (run O (initState L) n).pending.length > 1)
    (hsend : O.sendOk n = false) :
    ((run O (initState L) (n + 1)).events =
      (run O (initState L) n).events ++
        [SendEvent.group ((run O (initState L) n).pending.take 10) false
          ((run O (initState L) n).pending.take 10)
          (badOf O n (run O (initState L) n).pending)]) ∧
    ((run O (initState L) (n + 1)).errors =
      (run O (initState L) n).errors +
        (badOf O n (run O (initState L) n).pending).length) ∧
    (∀ a ∈ badOf O n (run O (initState L) n).pending, ∀ m, n < m →
      a ∉ (run O (initState L) m).pending ∧ a ∉ attemptsAt O L m) ∧
    (∀ a ∈ (run O (initState L) n).pending,
      a ∉ badOf O n (run O (initState L) n).pending →
      a ∈ (run O (initState L) (n + 1)).pending) ∧
    (∀ K, (run O (initState L) K).pending = [] →
      ∀ a ∈ (run O (initState L) n).pending,
        a ∉ badOf O n (run O (initState L) n).pending →
        ∃ m, n < m ∧ a ∈ attemptsAt O L m) := by
  rcases hp : (run O (initState L) n).pending with _ | ⟨a0, t0⟩
  · rw [hp] at hlen
    simp at hlen
  rcases t0 with _ | ⟨b0, rest⟩
  · rw [hp] at hlen
    simp at hlen
  have hstep := step_eq_group_fail O n (run O (initState L) n) a0 b0 rest
    hp hsend
  have hnext : ∀ a, a ∈ (run O (initState L) (n + 1)).pending ↔
      a ∈ (a0 :: b0 :: rest).filter
        (fun z => decide (z ∉ badOf O n (a0 :: b0 :: rest))) := by
    intro a
    rw [run_succ, hstep]
    exact (hO n _).mem_iff
  have hd : ∀ a ∈ a0 :: b0 :: rest,
      a ∉ badOf O n (a0 :: b0 :: rest) →
      a ∈ (run O (initState L) (n + 1)).pending := by
    intro a ha hnb
    rw [hnext a]
    exact List.mem_filter.mpr ⟨ha, by simpa using hnb⟩
  refine ⟨?_, ?_, ?_, ?_, ?_⟩
  · rw [run_succ, hstep]
  · rw [run_succ, hstep]
  · intro a hab m hm
    have hnot1 : a ∉ (run O (initState L) (n + 1)).pending := by
      rw [hnext a]
      intro hmem
      have := (List.mem_filter.mp hmem).2
      simp at this
      exact this hab
    have hnotm : a ∉ (run O (initState L) m).pending := by
      intro hmem
      have h1 : (n + 1) + (m - (n + 1)) = m := by omega
      have := run_pending_mono O hO (initState L) (n + 1) (m - (n + 1)) a
        (by rw [h1]; exact hmem)
      exact hnot1 this
    refine ⟨hnotm, ?_⟩
    intro hat
    exact hnotm (attemptsAt_subset O L m a hat)
  · exact hd
  · intro K hK a ha hnb
    obtain ⟨m, hm1, hm2⟩ := eventually_attempted O hO L K hK
      (K - (n + 1)) (n + 1) a (Nat.le_refl _) (hd a ha hnb)
    exact ⟨m, by omega, hm2⟩

/-- Oracle of the C4 witness: iteration 0 fails with item 2 probed bad,
every later send succeeds. -/
def recoverOracle : Oracle Nat :=
  ⟨fun n => !(n == 0), fun n a => if n == 0 && a == 2 then 500 else 200,
   fun _ => true, fun _ l => l⟩

/-- Witness for the amended claim C4 on the list `[0, 1, 2]` with the
failure at iteration 0. -/
theorem claim_C4_probe_and_remove_witness :
    ((run recoverOracle (initState [0, 1, 2]) 1).events =
      (run recoverOracle (initState [0, 1, 2]) 0).events ++
        [SendEvent.group
          ((run recoverOracle (initState [0, 1, 2]) 0).pending.take 10) false
          ((run recoverOracle (initState [0, 1, 2]) 0).pending.take 10)
          (badOf recoverOracle 0
            (run recoverOracle (initState [0, 1, 2]) 0).pending)]) ∧
    ((run recoverOracle (initState [0, 1, 2]) 1).errors =
      (run recoverOracle (initState [0, 1, 2]) 0).errors +
        (badOf recoverOracle 0
          (run recoverOracle (initState [0, 1, 2]) 0).pending).length) ∧
    (∀ a ∈ badOf recoverOracle 0
        (run recoverOracle (initState [0, 1, 2]) 0).pending, ∀ m, 0 < m →
      a ∉ (run recoverOracle (initState [0, 1, 2]) m).pending ∧
      a ∉ attemptsAt recoverOracle [0, 1, 2] m) ∧
    (∀ a ∈ (run recoverOracle (initState [0, 1, 2]) 0).pending,
      a ∉ badOf recoverOracle 0
        (run recoverOracle (initState [0, 1, 2]) 0).pending →
      a ∈ (run recoverOracle (initState [0, 1, 2]) 1).pending) ∧
    (∀ K, (run recoverOracle (initState [0, 1, 2]) K).pending = [] →
      ∀ a ∈ (run recoverOracle (initState [0, 1, 2]) 0).pending,
        a ∉ badOf recoverOracle 0
          (run recoverOracle (initState [0, 1, 2]) 0).pending →
        ∃ m, 0 < m ∧ a ∈ attemptsAt recoverOracle [0, 1, 2] m) :=
  claim_C4_probe_and_remove [0, 1, 2] recoverOracle 0
    (fun _ _ => List.Perm.refl _) (by decide) rfl


theorem pyTruthy_some_ne (v : String) (hv : v ≠ "") :
    pyTruthy (some v) = true := by
  have h1 : v.isEmpty = false := by
    rw [Bool.eq_false_iff]
    intro hc
    exact hv ((String.isEmpty_iff v).mp hc)
  show (!(v.isEmpty)) = true
  rw [h1]
  rfl

theorem translate_after_options_invoked (primary : Option String)
    (sec3 : String) (tf0 tt0 : Option String) (p : String)
    (tf tt : Option String)
    (h : translate_after_options primary sec3 tf0 tt0 = .invoked p tf tt) :
    tf = tf0 ∧ tt = tt0 := by
  unfold translate_after_options at h
  by_cases hmiss : (!(pyTruthy (if pyTruthy primary then primary
      else some sec3)) && !(pyTruthy (some sec3))) = true
  · rw [if_pos hmiss] at h
    exact TranslateOutcome.noConfusion h
  · rw [if_neg hmiss] at h
    injection h with h1 h2 h3
    exact ⟨h2.symm, h3.symm⟩

theorem translate_with_secondary_invoked (langs : String → Bool)
    (getOpt : String → String → Option String × String)
    (reply : Option String) (sec1 : String) (p : String)
    (tf tt : Option String)
    (h : translate_with_secondary langs getOpt reply sec1 =
      .invoked p tf tt) :
    (∀ v, tf = some v → v ≠ "" → langs v = true) ∧
    (∀ v, tt = some v → v ≠ "" → v = "en" ∨ langs v = true) := by
  unfold translate_with_secondary at h
  set q := getOpt "lf" sec1 with hq
  by_cases hbad1 : (pyTruthy q.1 && !(langs (q.1.getD ""))) = true
  · rw [if_pos hbad1] at h
    exact TranslateOutcome.noConfusion h
  · rw [if_neg hbad1] at h
    set s2 := (if pyTruthy q.1 then q.2 else sec1) with hs2
    set r := getOpt "lt" s2 with hr
    by_cases hbad2 : (pyTruthy r.1 && !(langs (r.1.getD ""))) = true
    · rw [if_pos hbad2] at h
      exact TranslateOutcome.noConfusion h
    · rw [if_neg hbad2] at h
      obtain ⟨htf, htt⟩ := translate_after_options_invoked _ _ _ _ _ _ _ h
      constructor
      · intro v hvv hv
        rw [htf] at hvv
        have htru : pyTruthy q.1 = true := by
          rw [hvv]
          exact pyTruthy_some_ne v hv
        rw [hvv] at hbad1 htru
        by_contra hno
        have hno' : langs v = false := Bool.not_eq_true _ ▸ hno
        exact hbad1 (by simp [htru, hno'])
      · intro v hvv hv
        rw [htt] at hvv
        by_cases htt0 : pyTruthy r.1 = true
        · rw [if_pos htt0] at hvv
          right
          rw [hvv] at hbad2 htt0
          by_contra hno
          have hno' : langs v = false := Bool.not_eq_true _ ▸ hno
          exact hbad2 (by simp [htt0, hno'])
        · rw [if_neg htt0] at hvv
          left
          exact (Option.some.inj hvv).symm

/-- Claim C8: whenever a supplied `-lf` or `-lt` language code is outside
the supported set, the command replies naming the offending code and stops
before reaching `translate_text`; and whenever the backend is reached
(the `invoked` outcome), every supplied code it receives is in the
supported set (the target may also be the default `en`). -/
theorem claim_C8_unsupported_language (langs : String → Bool)
    (getOpt : String → String → Option String × String)
    (reply : Option String) (msg : String) :
    (∀ v rest, pyTruthy (secondaryOf msg) = true →
      getOpt "lf" ((secondaryOf msg).getD "") = (some v, rest) →
      v ≠ "" → langs v = false →
      translate_command langs getOpt reply msg = .notAvailable v) ∧
    (∀ tf new1 v rest2, pyTruthy (secondaryOf msg) = true →
      getOpt "lf" ((secondaryOf msg).getD "") = (tf, new1) →
      (pyTruthy tf = true → langs (tf.getD "") = true) →
      getOpt "lt" (if pyTruthy tf then new1 else (secondaryOf msg).getD "") =
        (some v, rest2) →
      v ≠ "" → langs v = false →
      translate_command langs getOpt reply msg = .notAvailable v) ∧
    (∀ p tf tt, translate_command langs getOpt reply msg = .invoked p tf tt →
      (∀ v, tf = some v → v ≠ "" → langs v = true) ∧
      (∀ v, tt = some v → v ≠ "" → v = "en" ∨ langs v = true)) := by
  refine ⟨?_, ?_, ?_⟩
  · intro v rest hsec hopt hv hlang
    unfold translate_command
    rw [if_pos hsec]
    unfold translate_with_secondary
    rw [hopt]
    have hc : (pyTruthy (some v, rest).1 &&
        !(langs ((some v, rest).1.getD ""))) = true := by
      simp [pyTruthy_some_ne v hv, hlang]
    rw [if_pos hc]
    rfl
  · intro tf new1 v rest2 hsec hopt1 hok1 hopt2 hv hlang
    unfold translate_command
    rw [if_pos hsec]
    unfold translate_with_secondary
    rw [hopt1]
    have hc1 : (pyTruthy (tf, new1).1 &&
        !(langs ((tf, new1).1.getD ""))) = false := by
      by_cases htf : pyTruthy tf = true
      · simp [htf, hok1 htf]
      · simp [Bool.not_eq_true _ ▸ htf]
    rw [if_neg (by simp [hc1])]
    show (let sec2 := if pyTruthy (tf, new1).1 then (tf, new1).2
        else (secondaryOf msg).getD "";
      let tt0 := (getOpt "lt" sec2).1
      let new2 := (getOpt "lt" sec2).2
      if pyTruthy tt0 && !(langs (tt0.getD "")) then
        TranslateOutcome.notAvailable (tt0.getD "")
      else
        let sec3 := if pyTruthy tt0 then new2 else sec2
        let tt := if pyTruthy tt0 then tt0 else some "en"
        translate_after_options reply sec3 (tf, new1).1 tt) =
      TranslateOutcome.notAvailable v
    simp only []
    rw [hopt2]
    have hc2 : (pyTruthy (some v, rest2).1 &&
        !(langs ((some v, rest2).1.getD ""))) = true := by
      simp [pyTruthy_some_ne v hv, hlang]
    rw [if_pos hc2]
    rfl
  · intro p tf tt hinv
    by_cases hsec : pyTruthy (secondaryOf msg) = true
    · unfold translate_command at hinv
      rw [if_pos hsec] at hinv
      exact translate_with_secondary_invoked langs getOpt reply _ p tf tt hinv
    · unfold translate_command at hinv
      rw [if_neg hsec] at hinv
      by_cases hmiss : (!(pyTruthy reply) && !(pyTruthy (secondaryOf msg)))
          = true
      · rw [if_pos hmiss] at hinv
        exact TranslateOutcome.noConfusion hinv
      · rw [if_neg hmiss] at hinv
        injection hinv with h1 h2 h3
        refine ⟨?_, ?_⟩
        · intro v hvv _
          rw [← h2] at hvv
          exact Option.noConfusion hvv
        · intro v hvv _
          rw [← h3] at hvv
          exact Option.noConfusion hvv

/-- Supported-language set of the C8 witness. -/
def witnessLangs : String → Bool := fun s => s == "fr" || s == "en"

/-- Option extractor of the C8 witness: the `lf` flag carries the
unsupported code `xx`. -/
def witnessGetOpt : String → String → Option String × String :=
  fun name text => if name == "lf" then (some "xx", "hello") else (none, text)

/-- Witness for claim C8: the unsupported supplied code `xx` makes the
command abort with that code before any backend call. -/
theorem claim_C8_unsupported_language_witness :
    translate_command witnessLangs witnessGetOpt none
      "/translate hello -lf xx" = .notAvailable "xx" :=
  (claim_C8_unsupported_language witnessLangs witnessGetOpt none
    "/translate hello -lf xx").1 "xx" "hello" (by decide) (by decide)
    (by decide) (by decide)
